import Mathlib

/-!
Verification of the race-track subsystem of `bevy-jam-six`.

The development shallowly embeds the data model and operations of
`src/racing/mod.rs`, `src/screens/editor.rs` and `src/game/level.rs`:

* the track catalog (`TracksAsset`) with its create / store / delete /
  cycle / update operations;
* the asset loader (`TracksAssetLoader::load`) with reading and parsing
  abstracted to explicit outcomes;
* the geometry pipeline: the cyclic cardinal (Catmull-Rom) curve fit
  from `bevy_math` (`CubicCardinalSpline::to_curve_cyclic`,
  `CubicCurve::iter_positions`), the boundary-offset computation
  (`compute_bounds` / `RaceTrack::get_bounds`) and the ring-mesh / hull
  construction of `instantiate_track`;
* the editor's right-button move gesture and its save-to-file document.

Machine floats (`f32`) are modelled by real numbers; fallible Rust code
(`unwrap`, out-of-range `Vec::remove` / index panics) is modelled with
`Option`, where `none` marks a panic of the original program.
-/

/-- 2D vector, modelling glam `Vec2` (a pair of `f32`, idealized as reals). -/
abbrev Vec2 : Type := ℝ × ℝ

/-- Source: the `vec2(x, y)` constructor. -/
def vec2 (x y : ℝ) : Vec2 := (x, y)

/-- Source: `racing/mod.rs`, `struct RaceTrack { track_name: String, points: Vec<Vec2> }`. -/
structure RaceTrack where
  track_name : String
  points : List Vec2

/-- Source: `impl Default for RaceTrack` — empty name and the two-point seed path. -/
def RaceTrack.defaultTrack : RaceTrack :=
  { track_name := "", points := [vec2 (-500) (-200), vec2 (-500) (-150)] }

/-- Source: `racing/mod.rs`,
`struct TracksAsset { tracks: Vec<RaceTrack>, current_track_index: Option<usize> }`. -/
structure TracksAsset where
  tracks : List RaceTrack
  current_track_index : Option ℕ

namespace TracksAsset

/-- Source: `TracksAsset::store_track` — push the track, then point the current
index at the freshly pushed element (`self.tracks.len() - 1` after the push). -/
def store_track (s : TracksAsset) (track : RaceTrack) : TracksAsset :=
  { tracks := s.tracks ++ [track],
    current_track_index := some ((s.tracks ++ [track]).length - 1) }

/-- Source: `TracksAsset::new_track` — auto-generated name
`format!("Track {}", self.tracks.len() + 1)` and the two-point seed path,
then `store_track`. -/
def new_track (s : TracksAsset) : TracksAsset :=
  s.store_track
    { track_name := "Track " ++ toString (s.tracks.length + 1),
      points := [vec2 (-500) (-200), vec2 (-500) (-150)] }

/-- Source: `impl Default for TracksAsset` — the empty catalog followed by one
`new_track` call, so a single seeded track named "Track 1", selected. -/
def defaultAsset : TracksAsset :=
  TracksAsset.new_track { tracks := [], current_track_index := none }

/-- Source: `TracksAsset::delete_current_track`.  `Vec::remove(index)` panics
when `index` is out of range; every use below happens under the index
invariant, where it agrees with the total `List.eraseIdx`. -/
def delete_current_track (s : TracksAsset) : TracksAsset :=
  match s.current_track_index with
  | none => s
  | some index =>
      { tracks := s.tracks.eraseIdx index, current_track_index := none }

/-- Source: `TracksAsset::get_current_track`. -/
def get_current_track (s : TracksAsset) : Option RaceTrack :=
  match s.current_track_index with
  | none => none
  | some index => s.tracks[index]?

/-- Source: `TracksAsset::update_current_track` — replace the point list of the
current track via `get_current_track_mut`; a no-op when there is no current
track or the index is out of range (`Vec::get_mut` returns `None`). -/
def update_current_track (s : TracksAsset) (points : List Vec2) : TracksAsset :=
  match s.current_track_index with
  | none => s
  | some index =>
      match s.tracks[index]? with
      | none => s
      | some t =>
          { s with tracks := s.tracks.set index { t with points := points } }

/-- Source: `TracksAsset::get_next_track`.  Returns the newly selected track and
the updated state.  In the `Some(index)` branch the source compares against
`self.tracks.len() - 1`; on an empty catalog that subtraction underflows in
Rust, but every theorem below only enters that branch on a nonempty catalog. -/
def get_next_track (s : TracksAsset) : Option RaceTrack × TracksAsset :=
  match s.current_track_index with
  | none => (s.tracks[0]?, { s with current_track_index := some 0 })
  | some index =>
      if index = s.tracks.length - 1 then
        (s.tracks[0]?, { s with current_track_index := some 0 })
      else
        (s.tracks[index + 1]?, { s with current_track_index := some (index + 1) })

/-- Source: `TracksAsset::get_prev_track`. -/
def get_prev_track (s : TracksAsset) : Option RaceTrack × TracksAsset :=
  match s.current_track_index with
  | none => (s.tracks[0]?, { s with current_track_index := some 0 })
  | some index =>
      if index = 0 then
        (s.tracks[s.tracks.length - 1]?,
         { s with current_track_index := some (s.tracks.length - 1) })
      else
        (s.tracks[index - 1]?, { s with current_track_index := some (index - 1) })

/-- The state part of `get_next_track` (the spec's `advance()`). -/
def advance (s : TracksAsset) : TracksAsset := s.get_next_track.2

/-- The state part of `get_prev_track` (the spec's `retreat()`). -/
def retreat (s : TracksAsset) : TracksAsset := s.get_prev_track.2

end TracksAsset

/-- The spec's catalog index invariant: the current index, when present, is a
valid index into the track list, and it is `none` whenever the list is empty. -/
def indexInvariant (s : TracksAsset) : Prop :=
  (∀ i, s.current_track_index = some i → i < s.tracks.length) ∧
  (s.tracks.length = 0 → s.current_track_index = none)

/-! ### Asset loader (`TracksAssetLoader::load`) -/

/-- An I/O failure surfaced by the asset reader (`std::io::Error`). -/
structure IoError where
  msg : String

/-- Source: `enum TracksAssetLoaderError { Io(..), JsonError(..) }`. -/
inductive TracksAssetLoaderError where
  | io : IoError → TracksAssetLoaderError
  | jsonError : String → TracksAssetLoaderError

/-- Source: `TracksAssetLoader::load`.  The outcome of
`reader.read_to_end(&mut bytes)` is the `readResult` argument; the `?`
operator propagates its error as `TracksAssetLoaderError::Io`.
`serde_json::from_slice::<TracksAsset>` is abstracted by `fromSlice`
(`none` standing for any parse failure); its result is consumed with
`unwrap_or_default()`. -/
def tracksAssetLoaderLoad (fromSlice : List UInt8 → Option TracksAsset)
    (readResult : Except IoError (List UInt8)) :
    Except TracksAssetLoaderError TracksAsset :=
  match readResult with
  | .error e => .error (.io e)
  | .ok bytes => .ok ((fromSlice bytes).getD TracksAsset.defaultAsset)

/-! ### Editor session (`screens/editor.rs`) -/

/-- Source: `struct ControlPoints { points: Vec<Vec2>, selected: Option<usize> }`. -/
structure ControlPoints where
  points : List Vec2
  selected : Option ℕ

/-- Source: `struct MouseMoveMove { start: Option<Vec2> }` — the move-gesture
state machine (`none` is the spec's `Idle`, `some start` its `Pressed`). -/
structure MouseMoveMove where
  start : Option Vec2

/-- Source: the `MouseButton::Right` arm of `handle_mouse_press`, processing a
single right-button event.  `toWorld` abstracts
`camera.viewport_to_world_2d` (`none` for its `Err`, on which the source
`continue`s); `mouse_pos` is the current `MousePosition`.  The source release
arm converts the stored press position `start` — not the release position —
and writes it through `points.get_mut(selected).unwrap()`; that `unwrap`
panics when `selected` is out of range, modelled by the `none` result. -/
def handle_right_button (toWorld : Vec2 → Option Vec2) (mouse_pos : Vec2)
    (pressed : Bool) (cp : ControlPoints) (mv : MouseMoveMove) :
    Option (ControlPoints × MouseMoveMove) :=
  match cp.selected with
  | none => some (cp, mv)
  | some selected =>
      if pressed then
        if mv.start.isSome then some (cp, mv)
        else some (cp, { start := some mouse_pos })
      else
        match mv.start with
        | none => some (cp, mv)
        | some start =>
            match toWorld start with
            | none => some (cp, mv)
            | some point =>
                if selected < cp.points.length then
                  some ({ cp with points := cp.points.set selected point },
                        { start := none })
                else none

/-- A JSON document, as produced by `serde_json`. -/
inductive Json where
  | str : String → Json
  | num : ℝ → Json
  | arr : List Json → Json
  | obj : List (String × Json) → Json

/-- serde serialization of a `Vec2`: a two-element array. -/
def vec2ToJson (v : Vec2) : Json := .arr [.num v.1, .num v.2]

/-- serde serialization of a `RaceTrack` (derived `Serialize`): an object with
the `track_name` and `points` fields. -/
def raceTrackToJson (t : RaceTrack) : Json :=
  .obj [("track_name", .str t.track_name),
        ("points", .arr (t.points.map vec2ToJson))]

/-- Source: `save_to_file` in `screens/editor.rs` — builds a `RaceTrack` with
the constant name "Test Track" and the current control points, and writes its
serde serialization.  The returned value is the document written to disk. -/
def save_to_file (data : ControlPoints) : Json :=
  raceTrackToJson { track_name := "Test Track", points := data.points }

/-- Field lookup in a JSON object document. -/
def Json.field (j : Json) (key : String) : Option Json :=
  match j with
  | .obj fields => (fields.find? (fun kv => kv.1 == key)).map Prod.snd
  | _ => none

/-! ### Catalog operation sequences (for the uniqueness claim) -/

/-- One catalog operation of the name-uniqueness claim. -/
inductive CatalogOp where
  | create : CatalogOp
  | store : RaceTrack → CatalogOp
  | delete : CatalogOp

/-- Whether an operation is a `store`. -/
def CatalogOp.isStore : CatalogOp → Bool
  | .store _ => true
  | _ => false

/-- Apply one catalog operation. -/
def applyOp (s : TracksAsset) : CatalogOp → TracksAsset
  | .create => s.new_track
  | .store t => s.store_track t
  | .delete => s.delete_current_track

/-- Apply a sequence of catalog operations, first operation first. -/
def applyOps (s : TracksAsset) (ops : List CatalogOp) : TracksAsset :=
  ops.foldl applyOp s

/-! ### Geometry pipeline

The curve fit is `bevy_math`'s `CubicCardinalSpline::new_catmull_rom` followed
by `to_curve_cyclic` (the `CyclicCubicGenerator` instance), and sampling is
`CubicCurve::iter_positions`; these library functions are modelled here after
their source: the cyclic generator extends the control list with the last
point in front and the first two points behind, and turns every window of
four consecutive points into one cubic segment through the cardinal
characteristic matrix. -/

/-- Source: glam `Vec2::rotate` — complex multiplication of the two vectors. -/
def Vec2.rotate (a b : Vec2) : Vec2 :=
  (a.1 * b.1 - a.2 * b.2, a.2 * b.1 + a.1 * b.2)

/-- Source: glam `Vec2::from_angle` — the unit vector `(cos θ, sin θ)`. -/
noncomputable def Vec2.fromAngle (θ : ℝ) : Vec2 := (Real.cos θ, Real.sin θ)

/-- Euclidean length of a `Vec2` (glam `Vec2::length`). -/
noncomputable def vnorm (v : Vec2) : ℝ := Real.sqrt (v.1 ^ 2 + v.2 ^ 2)

/-- Source: glam `Vec2::normalize_or_zero` — `v / ‖v‖`, or zero when the
length is zero. -/
noncomputable def normalizeOrZero (v : Vec2) : Vec2 :=
  if vnorm v = 0 then (0, 0) else (v.1 / vnorm v, v.2 / vnorm v)

/-- A cubic segment in coefficient form (`bevy_math` `CubicSegment`):
`t ↦ a + t b + t² c + t³ d`. -/
structure CubicSegment where
  a : Vec2
  b : Vec2
  c : Vec2
  d : Vec2

/-- Evaluate a cubic segment at a local parameter. -/
def CubicSegment.position (s : CubicSegment) (t : ℝ) : Vec2 :=
  s.a + t • s.b + t ^ 2 • s.c + t ^ 3 • s.d

/-- The all-zero segment, used as an out-of-range default that is never hit. -/
def zeroSegment : CubicSegment := ⟨(0, 0), (0, 0), (0, 0), (0, 0)⟩

/-- Source: `CubicCardinalSpline::char_matrix` applied to four control points
by `CubicSegment::coefficients` — the cardinal characteristic matrix with
tension `s`. -/
def charCoefficients (s : ℝ) (p0 p1 p2 p3 : Vec2) : CubicSegment :=
  { a := p1,
    b := (-s) • p0 + s • p2,
    c := (2 * s) • p0 + (s - 3) • p1 + (3 - 2 * s) • p2 + (-s) • p3,
    d := (-s) • p0 + (2 - s) • p1 + (s - 2) • p2 + s • p3 }

/-- Source: `struct CubicCardinalSpline { tension: f32, control_points: Vec<P> }`. -/
structure CubicCardinalSpline where
  tension : ℝ
  control_points : List Vec2

/-- Source: `CubicCardinalSpline::new_catmull_rom` — tension `0.5`. -/
noncomputable def newCatmullRom (ps : List Vec2) : CubicCardinalSpline :=
  { tension := 1 / 2, control_points := ps }

/-- Source: a piecewise cubic curve, `bevy_math` `CubicCurve`. -/
structure CubicCurve where
  segments : List CubicSegment

/-- All windows of four consecutive elements of a list (`slice::windows(4)`). -/
def windows4 : List α → List (α × α × α × α)
  | a :: b :: c :: d :: rest => (a, b, c, d) :: windows4 (b :: c :: d :: rest)
  | _ => []

/-- The segment list built by `to_curve_cyclic` for control points
`p0 :: p1 :: rest`: the control list is extended by the last point in front
and the first two points behind, and each window of four consecutive points
becomes one cardinal segment. -/
def cyclicSegments (tension : ℝ) (p0 p1 : Vec2) (rest : List Vec2) :
    List CubicSegment :=
  (windows4 ((p0 :: p1 :: rest).getLast (List.cons_ne_nil _ _) ::
      ((p0 :: p1 :: rest) ++ [p0, p1]))).map
    (fun w => charCoefficients tension w.1 w.2.1 w.2.2.1 w.2.2.2)

/-- Source: `CubicCardinalSpline::to_curve_cyclic` — with fewer than two
control points the library reports `InsufficientDataError` (so the callers'
`.ok()` yields `None`); otherwise the windows of the extended control list
give exactly `len(points)` cardinal segments (see `cyclicSegments`). -/
noncomputable def toCurveCyclic (s : CubicCardinalSpline) : Option CubicCurve :=
  match s.control_points with
  | p0 :: p1 :: rest => some { segments := cyclicSegments s.tension p0 p1 rest }
  | _ => none

/-- Source: `CubicCurve::position` — locate the segment by flooring the global
parameter (clamped into range, saturating at zero as the Rust `as usize`
cast does) and evaluate it at the local remainder. -/
noncomputable def CubicCurve.positionAt (c : CubicCurve) (t : ℝ) : Vec2 :=
  if c.segments.length = 1 then (c.segments.getD 0 zeroSegment).position t
  else
    let i := min (Int.toNat ⌊t⌋) (c.segments.length - 1)
    (c.segments.getD i zeroSegment).position (t - i)

/-- Source: `CubicCurve::iter_positions(subdivisions)` — sample positions at
`subdivisions` uniformly spaced parameters `i * segment_count / subdivisions`. -/
noncomputable def CubicCurve.iterPositions (c : CubicCurve) (subdivisions : ℕ) :
    List Vec2 :=
  (List.range subdivisions).map
    (fun i : ℕ => c.positionAt ((i : ℝ) * ((c.segments.length : ℝ) / (subdivisions : ℝ))))

/-- Source: `RaceTrack::form_curve` (and the editor's `form_curve`) — the
optional `Curves` resource content. -/
noncomputable def RaceTrack.form_curve (t : RaceTrack) : Option CubicCurve :=
  toCurveCyclic (newCatmullRom t.points)

/-- Source: the finite-difference tangent estimate of `compute_bounds` /
`RaceTrack::get_bounds`: forward difference at the first sample, backward at
the last, central in between, each scaled by the tension.  The first branch
reads `p[i + 1]`, which panics (`none`) on a singleton list. -/
def boundsTangent (ps : List Vec2) (tension : ℝ) (i : ℕ) : Option Vec2 :=
  if i = 0 then
    (ps[i + 1]?).bind fun pn => (ps[i]?).map fun pi => (2 : ℝ) • tension • (pn - pi)
  else if i = ps.length - 1 then
    (ps[i]?).bind fun pi => (ps[i - 1]?).map fun pm => (2 : ℝ) • tension • (pi - pm)
  else
    (ps[i + 1]?).bind fun pn => (ps[i - 1]?).map fun pm => tension • (pn - pm)

/-- Source: one iteration of the `compute_bounds` loop — normalize the tangent
(zero stays zero), rotate by `from_angle(π / -2)` and scale by `20` for the
outer offset, rotate that by `from_angle(π)` for the inner one, and offset the
sample both ways. -/
noncomputable def boundsPair (ps : List Vec2) (i : ℕ) : Option (Vec2 × Vec2) :=
  (boundsTangent ps (1 / 2) i).bind fun tRaw =>
    (ps[i]?).map fun p =>
      let tangent := normalizeOrZero tRaw
      let normal := (20 : ℝ) • tangent.rotate (Vec2.fromAngle (Real.pi / (-2)))
      let normal2 := normal.rotate (Vec2.fromAngle Real.pi)
      (p + normal, p + normal2)

/-- Source: `compute_bounds` in `screens/editor.rs` (the identical loop is
inlined in `RaceTrack::get_bounds`): one boundary pair per input sample.
`none` marks the out-of-range index panic. -/
noncomputable def compute_bounds (control_points : List Vec2) :
    Option (List (Vec2 × Vec2)) :=
  (List.range control_points.length).mapM (boundsPair control_points)

/-- Source: `pub const RESOLUTION: usize = 5`. -/
def RESOLUTION : ℕ := 5

/-- Source: `RaceTrack::get_bounds` — unwraps the optional curve (`none` here
marks that panic), samples it at `RESOLUTION * segments` positions and runs
the boundary-offset loop. -/
noncomputable def RaceTrack.get_bounds (track : RaceTrack) :
    Option (List (Vec2 × Vec2)) :=
  track.form_curve.bind fun curve =>
    compute_bounds (curve.iterPositions (RESOLUTION * curve.segments.length))

/-- One quad of the track ring mesh as spawned by `instantiate_track` in
`game/level.rs`: four vertices (their constant `z = 0` component dropped),
the fixed index buffer of its two triangles, and the four-vertex convex
collision hull `[p0, p2, p3, p1]`. -/
structure TrackQuad where
  vertices : List Vec2
  indices : List ℕ
  hull : List Vec2

/-- Source: one iteration of the `instantiate_track` loop: `(p0, p1)` is
boundary pair `i` and `(p2, p3)` the next pair (wrapping to pair `0` after
the last). -/
def ringQuad (bounds : List (Vec2 × Vec2)) (i : ℕ) : Option TrackQuad :=
  (bounds[i]?).bind fun pr =>
    (bounds[if i = bounds.length - 1 then 0 else i + 1]?).map fun nx =>
      { vertices := [pr.1, pr.2, nx.1, nx.2],
        indices := [0, 2, 3, 0, 1, 3],
        hull := [pr.1, nx.1, nx.2, pr.2] }

/-- Source: `instantiate_track` — the full ring mesh built from the current
track's bounds, one quad and one convex hull per boundary pair. -/
noncomputable def instantiate_track (track : RaceTrack) : Option (List TrackQuad) :=
  track.get_bounds.bind fun bounds =>
    (List.range bounds.length).mapM (ringQuad bounds)

/-- The axis-aligned square loop used by the ring-mesh scenario. -/
def squareTrack : RaceTrack :=
  { track_name := "Square",
    points := [vec2 (-100) (-100), vec2 100 (-100), vec2 100 100, vec2 (-100) 100] }

/-- A one-track catalog with a valid selection, used to witness catalog theorems. -/
def oneTrackCatalog : TracksAsset :=
  { tracks := [{ track_name := "A", points := [] }], current_track_index := some 0 }

/-- A three-track catalog selected at the last index. -/
def threeTrackCatalog : TracksAsset :=
  { tracks := [{ track_name := "A", points := [] },
               { track_name := "B", points := [] },
               { track_name := "C", points := [] }],
    current_track_index := some 2 }

/-- The same three tracks, selected at index 0. -/
def threeTrackCatalog0 : TracksAsset :=
  { threeTrackCatalog with current_track_index := some 0 }

/-! ### Catalog lemmas -/

theorem advance_tracks_eq (s : TracksAsset) : s.advance.tracks = s.tracks := by
  rcases s with ⟨tracks, idx⟩
  cases idx with
  | none => rfl
  | some i =>
      simp only [TracksAsset.advance, TracksAsset.get_next_track]
      split <;> rfl

theorem retreat_tracks_eq (s : TracksAsset) : s.retreat.tracks = s.tracks := by
  rcases s with ⟨tracks, idx⟩
  cases idx with
  | none => rfl
  | some i =>
      simp only [TracksAsset.retreat, TracksAsset.get_prev_track]
      split <;> rfl

theorem advance_index_eq (s : TracksAsset) (i : ℕ)
    (h1 : s.current_track_index = some i) (h2 : i < s.tracks.length) :
    s.advance.current_track_index = some ((i + 1) % s.tracks.length) := by
  rcases s with ⟨tracks, idx⟩
  simp only at h1 h2
  subst h1
  simp only [TracksAsset.advance, TracksAsset.get_next_track]
  by_cases hif : i = tracks.length - 1
  · simp only [hif, if_pos rfl]
    have hlen : tracks.length - 1 + 1 = tracks.length := by omega
    simp [hlen, Nat.mod_self]
  · have hlt : i + 1 < tracks.length := by omega
    simp [hif, Nat.mod_eq_of_lt hlt]

theorem retreat_index_eq (s : TracksAsset) (i : ℕ)
    (h1 : s.current_track_index = some i) (h2 : i < s.tracks.length) :
    s.retreat.current_track_index =
      some ((i + (s.tracks.length - 1)) % s.tracks.length) := by
  rcases s with ⟨tracks, idx⟩
  simp only at h1 h2
  subst h1
  simp only [TracksAsset.retreat, TracksAsset.get_prev_track]
  by_cases hif : i = 0
  · subst hif
    have : tracks.length - 1 < tracks.length := by omega
    simp [Nat.mod_eq_of_lt this]
  · have : i + (tracks.length - 1) = (i - 1) + tracks.length := by omega
    have hlt : i - 1 < tracks.length := by omega
    simp [hif, this, Nat.add_mod_right, Nat.mod_eq_of_lt hlt]

theorem advance_iterate (s : TracksAsset) (i : ℕ)
    (h1 : s.current_track_index = some i) (h2 : i < s.tracks.length) (k : ℕ) :
    (TracksAsset.advance^[k] s).tracks = s.tracks ∧
    (TracksAsset.advance^[k] s).current_track_index =
      some ((i + k) % s.tracks.length) := by
  induction k with
  | zero => simp [h1, Nat.mod_eq_of_lt h2]
  | succ k ih =>
      rcases ih with ⟨htr, hidx⟩
      have hlen : 0 < s.tracks.length := Nat.lt_of_le_of_lt (Nat.zero_le i) h2
      have hjlt : (i + k) % s.tracks.length < s.tracks.length :=
        Nat.mod_lt _ hlen
      rw [Function.iterate_succ_apply']
      constructor
      · rw [advance_tracks_eq, htr]
      · rw [advance_index_eq _ _ hidx (by rw [htr]; exact hjlt), htr]
        have hmod : ((i + k) % s.tracks.length + 1) % s.tracks.length =
            (i + (k + 1)) % s.tracks.length := by
          have hme := Nat.ModEq.add_right 1 (Nat.mod_modEq (i + k) s.tracks.length)
          unfold Nat.ModEq at hme
          rw [hme]
          congr 1
        rw [hmod]

theorem retreat_iterate (s : TracksAsset) (i : ℕ)
    (h1 : s.current_track_index = some i) (h2 : i < s.tracks.length) (k : ℕ) :
    (TracksAsset.retreat^[k] s).tracks = s.tracks ∧
    (TracksAsset.retreat^[k] s).current_track_index =
      some ((i + k * (s.tracks.length - 1)) % s.tracks.length) := by
  induction k with
  | zero => simp [h1, Nat.mod_eq_of_lt h2]
  | succ k ih =>
      rcases ih with ⟨htr, hidx⟩
      have hlen : 0 < s.tracks.length := Nat.lt_of_le_of_lt (Nat.zero_le i) h2
      have hjlt : (i + k * (s.tracks.length - 1)) % s.tracks.length <
          s.tracks.length := Nat.mod_lt _ hlen
      rw [Function.iterate_succ_apply']
      constructor
      · rw [retreat_tracks_eq, htr]
      · rw [retreat_index_eq _ _ hidx (by rw [htr]; exact hjlt), htr]
        have hmod : ((i + k * (s.tracks.length - 1)) % s.tracks.length +
              (s.tracks.length - 1)) % s.tracks.length =
            (i + (k + 1) * (s.tracks.length - 1)) % s.tracks.length := by
          have hme := Nat.ModEq.add_right (s.tracks.length - 1)
            (Nat.mod_modEq (i + k * (s.tracks.length - 1)) s.tracks.length)
          unfold Nat.ModEq at hme
          rw [hme]
          congr 1
          ring
        rw [hmod]

/-! ### C1: the catalog index invariant -/

/-- C1, counterexample.  The empty catalog with no selection satisfies the
index invariant, yet `advance()` (`get_next_track`) on it sets the current
index to `Some(0)` while the collection is empty — so not every operation
from an invariant-satisfying state preserves the invariant, contrary to the
claim (the spec expects advance/retreat to be a no-op on an empty catalog). -/
theorem c1_advance_breaks_invariant :
    indexInvariant { tracks := [], current_track_index := none } ∧
    ¬ indexInvariant
        (TracksAsset.advance { tracks := [], current_track_index := none }) := by
  constructor
  · exact ⟨fun i h => by simp at h, fun _ => rfl⟩
  · intro h
    have h2 := h.2 rfl
    simp [TracksAsset.advance, TracksAsset.get_next_track] at h2

/-- C1, amended: starting from any catalog satisfying the index invariant,
`create_track` (`new_track`), `store`, `delete_selected`
(`delete_current_track`) and `update_points` (`update_current_track`) leave
the invariant intact, and `advance` / `retreat` do so whenever the
collection is nonempty; on an empty collection they set the index to
`Some(0)`, breaking it (see the counterexample). -/
theorem c1_invariant_preservation (s : TracksAsset) (t : RaceTrack)
    (ps : List Vec2) (h : indexInvariant s) :
    indexInvariant s.new_track ∧
    indexInvariant (s.store_track t) ∧
    indexInvariant s.delete_current_track ∧
    indexInvariant (s.update_current_track ps) ∧
    (s.tracks ≠ [] → indexInvariant s.advance ∧ indexInvariant s.retreat) := by
  have hstore : ∀ tr : RaceTrack, indexInvariant (s.store_track tr) := by
    intro tr
    constructor
    · intro i hi
      simp only [TracksAsset.store_track, List.length_append, List.length_cons,
        List.length_nil, Option.some.injEq] at hi ⊢
      omega
    · intro hlen
      simp [TracksAsset.store_track] at hlen
  refine ⟨hstore _, hstore t, ?_, ?_, ?_⟩
  · cases hidx : s.current_track_index with
    | none => simpa [TracksAsset.delete_current_track, hidx] using h
    | some i =>
        constructor
        · intro j hj
          simp [TracksAsset.delete_current_track, hidx] at hj
        · intro _
          simp [TracksAsset.delete_current_track, hidx]
  · cases hidx : s.current_track_index with
    | none => simpa [TracksAsset.update_current_track, hidx] using h
    | some i =>
        cases hget : s.tracks[i]? with
        | none => simpa [TracksAsset.update_current_track, hidx, hget] using h
        | some tr =>
            refine ⟨fun j hj => ?_, fun hlen => ?_⟩
            · simp only [TracksAsset.update_current_track, hidx, hget,
                List.length_set] at hj ⊢
              exact h.1 j (by rw [hidx]; exact hj)
            · simp only [TracksAsset.update_current_track, hidx, hget,
                List.length_set] at hlen ⊢
              rw [h.2 hlen] at hidx
              simp at hidx
  · intro hne
    have hpos : 0 < s.tracks.length := List.length_pos.mpr hne
    constructor
    · refine ⟨fun j hj => ?_, fun hlen => ?_⟩
      · rw [advance_tracks_eq]
        cases hidx : s.current_track_index with
        | none =>
            simp [TracksAsset.advance, TracksAsset.get_next_track, hidx] at hj
            omega
        | some i =>
            have hi := h.1 i hidx
            simp only [TracksAsset.advance, TracksAsset.get_next_track, hidx] at hj
            by_cases hc : i = s.tracks.length - 1 <;> simp [hc] at hj <;> omega
      · rw [advance_tracks_eq] at hlen
        omega
    · refine ⟨fun j hj => ?_, fun hlen => ?_⟩
      · rw [retreat_tracks_eq]
        cases hidx : s.current_track_index with
        | none =>
            simp [TracksAsset.retreat, TracksAsset.get_prev_track, hidx] at hj
            omega
        | some i =>
            have hi := h.1 i hidx
            simp only [TracksAsset.retreat, TracksAsset.get_prev_track, hidx] at hj
            by_cases hc : i = 0 <;> simp [hc] at hj <;> omega
      · rw [retreat_tracks_eq] at hlen
        omega

/-- C1, witness: the amended preservation theorem applied to a concrete
one-track catalog. -/
theorem c1_invariant_preservation_witness :
    indexInvariant oneTrackCatalog.new_track ∧
    indexInvariant (oneTrackCatalog.store_track RaceTrack.defaultTrack) ∧
    indexInvariant oneTrackCatalog.delete_current_track ∧
    indexInvariant (oneTrackCatalog.update_current_track []) ∧
    indexInvariant oneTrackCatalog.advance ∧
    indexInvariant oneTrackCatalog.retreat := by
  have hinv : indexInvariant oneTrackCatalog :=
    ⟨fun i hi => by simp [oneTrackCatalog] at hi ⊢; omega,
     fun hlen => by simp [oneTrackCatalog] at hlen⟩
  have happ := c1_invariant_preservation oneTrackCatalog RaceTrack.defaultTrack [] hinv
  exact ⟨happ.1, happ.2.1, happ.2.2.1, happ.2.2.2.1,
    happ.2.2.2.2 (by simp [oneTrackCatalog])⟩

/-! ### C4: the cycling closure law -/

/-- C4: on a catalog with a valid current selection, `advance()` applied
`len(tracks)` times returns the selection to its starting index, and so does
`retreat()`; in particular with 3 tracks, `advance()` from index 2 selects
index 0 and `retreat()` from index 0 selects index 2. -/
theorem c4_catalog_closure (s : TracksAsset) (i : ℕ)
    (h1 : s.current_track_index = some i) (h2 : i < s.tracks.length) :
    (TracksAsset.advance^[s.tracks.length] s).current_track_index = some i ∧
    (TracksAsset.retreat^[s.tracks.length] s).current_track_index = some i ∧
    (s.tracks.length = 3 → i = 2 → s.advance.current_track_index = some 0) ∧
    (s.tracks.length = 3 → i = 0 → s.retreat.current_track_index = some 2) := by
  refine ⟨?_, ?_, ?_, ?_⟩
  · rw [(advance_iterate s i h1 h2 s.tracks.length).2]
    rw [Nat.add_mod_right, Nat.mod_eq_of_lt h2]
  · rw [(retreat_iterate s i h1 h2 s.tracks.length).2]
    rw [Nat.add_mul_mod_self_left, Nat.mod_eq_of_lt h2]
  · intro h3 hi2
    rw [advance_index_eq s i h1 h2, h3, hi2]
  · intro h3 hi0
    rw [retreat_index_eq s i h1 h2, h3, hi0]

/-- C4, witness: the closure law on a concrete three-track catalog selected at
the last index, plus the two concrete cycling steps of the scenario. -/
theorem c4_catalog_closure_witness :
    (TracksAsset.advance^[3] threeTrackCatalog).current_track_index = some 2 ∧
    threeTrackCatalog.advance.current_track_index = some 0 ∧
    threeTrackCatalog0.retreat.current_track_index = some 2 := by
  have hA := c4_catalog_closure threeTrackCatalog 2 rfl
    (by simp [threeTrackCatalog])
  have hB := c4_catalog_closure threeTrackCatalog0 0 rfl
    (by simp [threeTrackCatalog0, threeTrackCatalog])
  refine ⟨?_, ?_, ?_⟩
  · have := hA.1
    simpa [threeTrackCatalog] using this
  · exact hA.2.2.1 (by simp [threeTrackCatalog]) rfl
  · exact hB.2.2.2 (by simp [threeTrackCatalog0, threeTrackCatalog]) rfl

/-! ### C2: the loader contract -/

/-- C2, counterexample.  The claim says the loader never propagates an error;
but when the reader itself fails (unreadable input), the `?` operator in
`TracksAssetLoader::load` propagates the I/O error to the caller instead of
substituting the default document. -/
theorem c2_unreadable_propagates :
    tracksAssetLoaderLoad (fun _ => none)
        (.error { msg := "unreadable" }) =
      .error (.io { msg := "unreadable" }) := rfl

/-- C2, amended: for every byte sequence that was successfully read, the
loader returns a catalog without error, substituting the default
single-track document (one "Track 1" with the two-point seed path, selected)
whenever parsing fails; an unreadable input, however, propagates an
`Io` error to the caller. -/
theorem c2_load_contract (fromSlice : List UInt8 → Option TracksAsset)
    (bytes : List UInt8) (e : IoError) :
    tracksAssetLoaderLoad fromSlice (.ok bytes) =
      .ok ((fromSlice bytes).getD TracksAsset.defaultAsset) ∧
    (fromSlice bytes = none →
      tracksAssetLoaderLoad fromSlice (.ok bytes) = .ok TracksAsset.defaultAsset) ∧
    tracksAssetLoaderLoad fromSlice (.error e) = .error (.io e) ∧
    TracksAsset.defaultAsset.tracks =
      [{ track_name := "Track 1",
         points := [vec2 (-500) (-200), vec2 (-500) (-150)] }] ∧
    TracksAsset.defaultAsset.current_track_index = some 0 := by
  refine ⟨rfl, fun hp => ?_, rfl, rfl, rfl⟩
  simp [tracksAssetLoaderLoad, hp]

/-- C2, witness: the amended contract at a concrete failing parse and a
concrete read error. -/
theorem c2_load_contract_witness :
    tracksAssetLoaderLoad (fun _ => none) (.ok []) =
      .ok TracksAsset.defaultAsset ∧
    tracksAssetLoaderLoad (fun _ => none) (.error { msg := "io" }) =
      .error (.io { msg := "io" }) :=
  ⟨(c2_load_contract (fun _ => none) [] { msg := "io" }).2.1 rfl,
   (c2_load_contract (fun _ => none) [] { msg := "io" }).2.2.1⟩

/-! ### C8: the move gesture -/

/-- C8, counterexample.  With a point selected, pressing the secondary button
at `(5, 5)` and releasing it with the mouse at `(9, 9)` overwrites the
selected point with the conversion of the PRESS location `(5, 5)` — the
source converts the stored `start`, not the release location — so the claim
that the release location is used is false. -/
theorem c8_press_location_counterexample :
    handle_right_button (fun v => some v) (vec2 9 9) false
        { points := [vec2 0 0], selected := some 0 }
        { start := some (vec2 5 5) } =
      some ({ points := [vec2 5 5], selected := some 0 }, { start := none }) ∧
    vec2 5 5 ≠ vec2 9 9 := by
  constructor
  · rfl
  · intro hcontra
    have h5 : (5 : ℝ) = 9 := congrArg Prod.fst hcontra
    norm_num at h5

/-- C8, amended: when the secondary button is released in the `Pressed` state
with a point selected (at a valid index) and the conversion succeeds, the
selected point is overwritten with the world-space conversion of the PRESS
location stored by the gesture, and the gesture returns to `Idle`; every
right-button event is ignored when no point is selected. -/
theorem c8_move_gesture (toWorld : Vec2 → Option Vec2)
    (mouse_pos press world : Vec2) (cp : ControlPoints) (mv : MouseMoveMove)
    (sel : ℕ) (h1 : cp.selected = some sel) (h2 : sel < cp.points.length)
    (h3 : mv.start = some press) (h4 : toWorld press = some world) :
    handle_right_button toWorld mouse_pos false cp mv =
      some ({ cp with points := cp.points.set sel world }, { start := none }) ∧
    (∀ (cp2 : ControlPoints) (mv2 : MouseMoveMove) (b : Bool) (m2 : Vec2),
      cp2.selected = none →
      handle_right_button toWorld m2 b cp2 mv2 = some (cp2, mv2)) := by
  constructor
  · simp [handle_right_button, h1, h3, h4, h2]
  · intro cp2 mv2 b m2 hnone
    simp [handle_right_button, hnone]

/-- C8, witness: the amended gesture behaviour at concrete inputs — a
release that writes the converted press location, and an ignored event with
no selection. -/
theorem c8_move_gesture_witness :
    handle_right_button (fun v => some v) (vec2 1 1) false
        { points := [vec2 0 0], selected := some 0 }
        { start := some (vec2 2 3) } =
      some ({ points := ([vec2 0 0] : List Vec2).set 0 (vec2 2 3),
              selected := some 0 },
            { start := none }) ∧
    handle_right_button (fun v => some v) (vec2 4 4) true
        { points := [], selected := none } { start := none } =
      some ({ points := [], selected := none }, { start := none }) := by
  have happ := c8_move_gesture (fun v => some v) (vec2 1 1) (vec2 2 3) (vec2 2 3)
    { points := [vec2 0 0], selected := some 0 } { start := some (vec2 2 3) } 0
    rfl (by simp) rfl rfl
  exact ⟨happ.1, happ.2 _ _ true (vec2 4 4) rfl⟩

/-! ### C10: the saved document -/

/-- C10: for every control-point list, the editor's save operation writes a
single-track document whose `points` field is exactly the current point list
and whose `track_name` field is the constant "Test Track"; `save_to_file`
never reads the current track, so the name is independent of any current
track's actual name. -/
theorem c10_save_document (data : ControlPoints) :
    (save_to_file data).field "track_name" = some (.str "Test Track") ∧
    (save_to_file data).field "points" =
      some (.arr (data.points.map vec2ToJson)) := by
  constructor <;> simp [save_to_file, raceTrackToJson, Json.field, List.find?]

/-! ### C3: degenerate control-point lists -/

/-- C3 (code bug): for a control-point list of length 0 or 1 the curve fit
indeed yields no curve (`form_curve = none`, as the claim states), but
`RaceTrack::get_bounds` — and therefore `instantiate_track` — then calls
`.unwrap()` on that absent curve and panics (modelled by `none`), instead of
producing the claimed empty boundary-pair sequence and zero-quad ring mesh;
the editor's `update_curve` unwraps identically.  The `Curves` doc comment
says the curve is optional precisely because there may not be enough control
points, so the unconditional unwrap contradicts the code's own
documentation. -/
theorem c3_degenerate_input_panics :
    (RaceTrack.mk "T" []).form_curve = none ∧
    (RaceTrack.mk "T" [vec2 0 0]).form_curve = none ∧
    (RaceTrack.mk "T" []).get_bounds = none ∧
    (RaceTrack.mk "T" [vec2 0 0]).get_bounds = none ∧
    instantiate_track (RaceTrack.mk "T" []) = none ∧
    instantiate_track (RaceTrack.mk "T" [vec2 0 0]) = none :=
  ⟨rfl, rfl, rfl, rfl, rfl, rfl⟩

/-! ### Geometry lemmas -/

theorem windows4_length {α : Type} : ∀ l : List α, (windows4 l).length = l.length - 3
  | [] => rfl
  | [_] => rfl
  | [_, _] => rfl
  | [_, _, _] => rfl
  | a :: b :: c :: d :: rest => by
      have ih := windows4_length (b :: c :: d :: rest)
      simp only [windows4, List.length_cons] at ih ⊢
      omega

theorem windows4_getElem? {α : Type} (dflt : α) :
    ∀ (l : List α) (k : ℕ), k + 3 < l.length →
      (windows4 l)[k]? = some (l.getD k dflt, l.getD (k + 1) dflt,
        l.getD (k + 2) dflt, l.getD (k + 3) dflt)
  | [], _, h => by simp only [List.length_nil] at h; omega
  | [_], _, h => by simp only [List.length_cons, List.length_nil] at h; omega
  | [_, _], _, h => by simp only [List.length_cons, List.length_nil] at h; omega
  | [_, _, _], _, h => by simp only [List.length_cons, List.length_nil] at h; omega
  | a :: b :: c :: d :: rest, 0, _ => by
      simp [windows4, List.getD]
  | a :: b :: c :: d :: rest, k + 1, h => by
      have ih := windows4_getElem? dflt (b :: c :: d :: rest) k
        (by simp only [List.length_cons] at h ⊢; omega)
      simp only [windows4, List.getElem?_cons_succ]
      rw [ih]
      rfl

theorem mapM_option_spec {α β : Type} (f : α → Option β) :
    ∀ l : List α, (∀ x ∈ l, (f x).isSome) →
      ∃ r, l.mapM f = some r ∧ r.length = l.length ∧
        ∀ (k : ℕ) (x : α), l[k]? = some x → r[k]? = f x := by
  intro l
  induction l with
  | nil =>
      intro _
      exact ⟨[], rfl, rfl, fun k x hx => by simp at hx⟩
  | cons a t ih =>
      intro hall
      obtain ⟨b, hb⟩ := Option.isSome_iff_exists.mp (hall a (by simp))
      obtain ⟨r, hr, hlen, hget⟩ := ih (fun x hx => hall x (by simp [hx]))
      refine ⟨b :: r, ?_, by simp [hlen], ?_⟩
      · rw [List.mapM_cons, hb, hr]
        rfl
      · intro k x hx
        cases k with
        | zero =>
            simp only [List.getElem?_cons_zero, Option.some.injEq] at hx
            subst hx
            simp [hb]
        | succ k =>
            simp only [List.getElem?_cons_succ] at hx ⊢
            exact hget k x hx

theorem iterPositions_length (c : CubicCurve) (R : ℕ) :
    (c.iterPositions R).length = R := by
  unfold CubicCurve.iterPositions
  rw [List.length_map, List.length_range]

theorem charCoefficients_position_zero (s : ℝ) (p0 p1 p2 p3 : Vec2) :
    (charCoefficients s p0 p1 p2 p3).position 0 = p1 := by
  refine Prod.ext_iff.mpr ⟨?_, ?_⟩ <;>
    simp [charCoefficients, CubicSegment.position, Prod.fst_add, Prod.snd_add,
      Prod.smul_fst, Prod.smul_snd, smul_eq_mul]

theorem charCoefficients_position_one (s : ℝ) (p0 p1 p2 p3 : Vec2) :
    (charCoefficients s p0 p1 p2 p3).position 1 = p2 := by
  refine Prod.ext_iff.mpr ⟨?_, ?_⟩ <;>
    simp only [charCoefficients, CubicSegment.position, Prod.fst_add, Prod.snd_add,
      Prod.smul_fst, Prod.smul_snd, smul_eq_mul, one_pow, one_mul] <;> ring

theorem exists_cons_cons_of_two_le {α : Type} {l : List α} (h : 2 ≤ l.length) :
    ∃ a b t, l = a :: b :: t := by
  cases l with
  | nil => simp only [List.length_nil] at h; omega
  | cons a t =>
      cases t with
      | nil => simp only [List.length_cons, List.length_nil] at h; omega
      | cons b t => exact ⟨a, b, t, rfl⟩

theorem toCurveCyclic_eq (tension : ℝ) (a b : Vec2) (rest : List Vec2) :
    toCurveCyclic { tension := tension, control_points := a :: b :: rest } =
      some { segments := cyclicSegments tension a b rest } := rfl

theorem cyclicSegments_length (tension : ℝ) (a b : Vec2) (rest : List Vec2) :
    (cyclicSegments tension a b rest).length = rest.length + 2 := by
  unfold cyclicSegments
  rw [List.length_map, windows4_length]
  simp only [List.length_cons, List.length_append, List.length_nil]
  omega

theorem toCurveCyclic_segments_length (tension : ℝ) (ps : List Vec2)
    (h : 2 ≤ ps.length) :
    ∃ c, toCurveCyclic { tension := tension, control_points := ps } = some c ∧
      c.segments.length = ps.length := by
  obtain ⟨a, b, rest, rfl⟩ := exists_cons_cons_of_two_le h
  refine ⟨_, toCurveCyclic_eq tension a b rest, ?_⟩
  simp [cyclicSegments_length]

theorem cyclicSegments_head (tension : ℝ) (a b : Vec2) (rest : List Vec2) :
    ∃ s0, (cyclicSegments tension a b rest).head? = some s0 ∧
      s0.position 0 = a := by
  obtain ⟨c0, t0, hct⟩ : ∃ c0 t0, rest ++ [a, b] = c0 :: t0 := by
    cases rest with
    | nil => exact ⟨a, [b], rfl⟩
    | cons r rt => exact ⟨r, rt ++ [a, b], rfl⟩
  unfold cyclicSegments
  rw [show (a :: b :: rest) ++ [a, b] = a :: b :: c0 :: t0 from by simp [hct]]
  simp only [windows4, List.map_cons, List.head?_cons]
  exact ⟨_, rfl, charCoefficients_position_zero tension _ a b c0⟩

theorem cyclicSegments_last (tension : ℝ) (a b : Vec2) (rest : List Vec2) :
    ∃ sl, (cyclicSegments tension a b rest).getLast? = some sl ∧
      sl.position 1 = a := by
  have hlenext : ((a :: b :: rest).getLast (List.cons_ne_nil _ _) ::
      ((a :: b :: rest) ++ [a, b])).length = rest.length + 5 := by
    simp
  rw [List.getLast?_eq_getElem?, cyclicSegments_length]
  unfold cyclicSegments
  rw [List.getElem?_map]
  rw [show rest.length + 2 - 1 = rest.length + 1 from by omega]
  rw [windows4_getElem? a _ (rest.length + 1) (by rw [hlenext]; omega)]
  have hgetD : ((a :: b :: rest).getLast (List.cons_ne_nil _ _) ::
      ((a :: b :: rest) ++ [a, b])).getD (rest.length + 1 + 2) a = a := by
    rw [show rest.length + 1 + 2 = (rest.length + 2) + 1 from by omega,
      List.getD_cons_succ, List.getD_eq_getElem?_getD,
      List.getElem?_append_right (by simp)]
    simp
  rw [hgetD]
  simp only [Option.map_some']
  exact ⟨_, rfl, charCoefficients_position_one tension _ _ a _⟩

/-! ### C5: the curve fit -/

/-- C5: for every point sequence of length n ≥ 2 the Catmull-Rom fit treats
the sequence as a closed loop and produces exactly n curve segments — the
first segment starts at the first control point and the last segment returns
to that same first point — and sampling at any resolution R yields exactly R
positions (the empty sequence at R = 0). -/
theorem c5_curve_fit (ps : List Vec2) (h : 2 ≤ ps.length) :
    ∃ c, toCurveCyclic (newCatmullRom ps) = some c ∧
      c.segments.length = ps.length ∧
      (∀ R : ℕ, (c.iterPositions R).length = R) ∧
      c.iterPositions 0 = [] ∧
      ∃ p0, ps[0]? = some p0 ∧
        (∃ s0, c.segments.head? = some s0 ∧ s0.position 0 = p0) ∧
        (∃ sl, c.segments.getLast? = some sl ∧ sl.position 1 = p0) := by
  obtain ⟨a, b, rest, rfl⟩ := exists_cons_cons_of_two_le h
  refine ⟨{ segments := cyclicSegments (1 / 2) a b rest },
    toCurveCyclic_eq (1 / 2) a b rest, ?_, ?_, ?_, ?_⟩
  · simpa using cyclicSegments_length (1 / 2) a b rest
  · exact fun R => iterPositions_length _ R
  · rfl
  · exact ⟨a, rfl, cyclicSegments_head (1 / 2) a b rest,
      cyclicSegments_last (1 / 2) a b rest⟩

/-- C5, witness: the fit of the concrete two-point sequence has two segments,
sampling at resolution 7 gives 7 positions, and resolution 0 gives none. -/
theorem c5_curve_fit_witness :
    (toCurveCyclic (newCatmullRom [vec2 0 0, vec2 1 0])).map
        (fun c => c.segments.length) = some 2 ∧
    (toCurveCyclic (newCatmullRom [vec2 0 0, vec2 1 0])).map
        (fun c => (c.iterPositions 7).length) = some 7 ∧
    (toCurveCyclic (newCatmullRom [vec2 0 0, vec2 1 0])).map
        (fun c => c.iterPositions 0) = some [] := by
  obtain ⟨c, hc, hlen, hR, h0, _⟩ := c5_curve_fit [vec2 0 0, vec2 1 0] (by simp)
  rw [hc]
  exact ⟨by simpa using hlen, by simp [hR 7], by simp [h0]⟩

/-! ### Norm lemmas for the boundary offsets -/

theorem vnorm_eq_zero_iff (v : Vec2) : vnorm v = 0 ↔ v = 0 := by
  unfold vnorm
  rw [Real.sqrt_eq_zero']
  constructor
  · intro hle
    have h1 : v.1 ^ 2 = 0 := by nlinarith [sq_nonneg v.1, sq_nonneg v.2]
    have h2 : v.2 ^ 2 = 0 := by nlinarith [sq_nonneg v.1, sq_nonneg v.2]
    exact Prod.ext_iff.mpr ⟨(pow_eq_zero_iff (by norm_num)).mp h1,
      (pow_eq_zero_iff (by norm_num)).mp h2⟩
  · intro h0
    rw [h0]
    norm_num

theorem vnorm_smul (c : ℝ) (v : Vec2) : vnorm (c • v) = |c| * vnorm v := by
  simp only [vnorm, Prod.smul_fst, Prod.smul_snd, smul_eq_mul]
  rw [show (c * v.1) ^ 2 + (c * v.2) ^ 2 = c ^ 2 * (v.1 ^ 2 + v.2 ^ 2) from by ring]
  rw [Real.sqrt_mul (sq_nonneg c), Real.sqrt_sq_eq_abs]

theorem vnorm_rotate (a b : Vec2) : vnorm (a.rotate b) = vnorm a * vnorm b := by
  simp only [vnorm, Vec2.rotate]
  rw [← Real.sqrt_mul (by positivity)]
  congr 1
  ring

theorem vnorm_fromAngle (θ : ℝ) : vnorm (Vec2.fromAngle θ) = 1 := by
  simp only [vnorm, Vec2.fromAngle]
  rw [show Real.cos θ ^ 2 + Real.sin θ ^ 2 = 1 from by
    rw [add_comm]; exact Real.sin_sq_add_cos_sq θ]
  exact Real.sqrt_one

theorem vnorm_normalizeOrZero (v : Vec2) (h : v ≠ 0) :
    vnorm (normalizeOrZero v) = 1 := by
  have hn : vnorm v ≠ 0 := fun h0 => h ((vnorm_eq_zero_iff v).mp h0)
  have harg : v.1 ^ 2 + v.2 ^ 2 ≠ 0 := by
    intro hh
    apply hn
    unfold vnorm
    rw [hh, Real.sqrt_zero]
  unfold normalizeOrZero
  rw [if_neg hn]
  show Real.sqrt ((v.1 / vnorm v) ^ 2 + (v.2 / vnorm v) ^ 2) = 1
  rw [show (v.1 / vnorm v) ^ 2 + (v.2 / vnorm v) ^ 2 =
      (v.1 ^ 2 + v.2 ^ 2) / vnorm v ^ 2 from by ring]
  rw [show vnorm v ^ 2 = v.1 ^ 2 + v.2 ^ 2 from Real.sq_sqrt (by positivity)]
  rw [div_self harg]
  exact Real.sqrt_one

theorem normalizeOrZero_zero : normalizeOrZero 0 = 0 := by
  unfold normalizeOrZero
  rw [if_pos]
  · rfl
  · show Real.sqrt ((0 : Vec2).1 ^ 2 + (0 : Vec2).2 ^ 2) = 0
    norm_num

theorem rotate_zero_left (b : Vec2) : Vec2.rotate 0 b = 0 := by
  refine Prod.ext_iff.mpr ⟨?_, ?_⟩ <;> simp [Vec2.rotate]

theorem boundsOffset_norm (tRaw p : Vec2) (h : tRaw ≠ 0) :
    vnorm ((p + (20 : ℝ) •
        (normalizeOrZero tRaw).rotate (Vec2.fromAngle (Real.pi / (-2)))) - p) = 20 ∧
    vnorm ((p + ((20 : ℝ) •
        (normalizeOrZero tRaw).rotate (Vec2.fromAngle (Real.pi / (-2)))).rotate
          (Vec2.fromAngle Real.pi)) - p) = 20 := by
  have h1 : vnorm ((20 : ℝ) •
      (normalizeOrZero tRaw).rotate (Vec2.fromAngle (Real.pi / (-2)))) = 20 := by
    rw [vnorm_smul, vnorm_rotate, vnorm_normalizeOrZero _ h, vnorm_fromAngle]
    norm_num
  constructor
  · rw [add_sub_cancel_left]
    exact h1
  · rw [add_sub_cancel_left, vnorm_rotate, vnorm_fromAngle, mul_one]
    exact h1

theorem boundsOffset_zero (p : Vec2) :
    p + (20 : ℝ) • (normalizeOrZero 0).rotate (Vec2.fromAngle (Real.pi / (-2))) = p ∧
    p + ((20 : ℝ) • (normalizeOrZero 0).rotate
        (Vec2.fromAngle (Real.pi / (-2)))).rotate (Vec2.fromAngle Real.pi) = p := by
  constructor <;> simp [normalizeOrZero_zero, rotate_zero_left, smul_zero]

theorem boundsPair_spec (ps : List Vec2) (i : ℕ) (h2 : 2 ≤ ps.length)
    (hi : i < ps.length) :
    ∃ p tRaw pr,
      ps[i]? = some p ∧
      boundsTangent ps (1 / 2) i = some tRaw ∧
      boundsPair ps i = some pr ∧
      pr = (p + (20 : ℝ) •
          (normalizeOrZero tRaw).rotate (Vec2.fromAngle (Real.pi / (-2))),
        p + ((20 : ℝ) •
          (normalizeOrZero tRaw).rotate (Vec2.fromAngle (Real.pi / (-2)))).rotate
            (Vec2.fromAngle Real.pi)) ∧
      (i = 0 → ∃ pn, ps[i + 1]? = some pn ∧
        tRaw = (2 : ℝ) • (1 / 2 : ℝ) • (pn - p)) ∧
      (0 < i → i = ps.length - 1 → ∃ pm, ps[i - 1]? = some pm ∧
        tRaw = (2 : ℝ) • (1 / 2 : ℝ) • (p - pm)) ∧
      (0 < i → i < ps.length - 1 → ∃ pn pm, ps[i + 1]? = some pn ∧
        ps[i - 1]? = some pm ∧ tRaw = (1 / 2 : ℝ) • (pn - pm)) := by
  obtain ⟨pi, hpi⟩ : ∃ x, ps[i]? = some x := ⟨_, List.getElem?_eq_getElem hi⟩
  by_cases hi0 : i = 0
  · obtain ⟨pn, hpn⟩ : ∃ x, ps[i + 1]? = some x :=
      ⟨_, List.getElem?_eq_getElem (by omega)⟩
    have ht : boundsTangent ps (1 / 2) i =
        some ((2 : ℝ) • (1 / 2 : ℝ) • (pn - pi)) := by
      unfold boundsTangent
      rw [if_pos hi0, hpn, hpi]
      rfl
    have hp : boundsPair ps i =
        some (pi + (20 : ℝ) •
            (normalizeOrZero ((2 : ℝ) • (1 / 2 : ℝ) • (pn - pi))).rotate
              (Vec2.fromAngle (Real.pi / (-2))),
          pi + ((20 : ℝ) •
            (normalizeOrZero ((2 : ℝ) • (1 / 2 : ℝ) • (pn - pi))).rotate
              (Vec2.fromAngle (Real.pi / (-2)))).rotate
                (Vec2.fromAngle Real.pi)) := by
      unfold boundsPair
      rw [ht, hpi]
      rfl
    exact ⟨pi, _, _, hpi, ht, hp, rfl,
      fun _ => ⟨pn, hpn, rfl⟩,
      fun hgt _ => by omega,
      fun hgt hlt => by omega⟩
  · by_cases hil : i = ps.length - 1
    · obtain ⟨pm, hpm⟩ : ∃ x, ps[i - 1]? = some x :=
        ⟨_, List.getElem?_eq_getElem (by omega)⟩
      have ht : boundsTangent ps (1 / 2) i =
          some ((2 : ℝ) • (1 / 2 : ℝ) • (pi - pm)) := by
        unfold boundsTangent
        rw [if_neg hi0, if_pos hil, hpi, hpm]
        rfl
      have hp : boundsPair ps i =
          some (pi + (20 : ℝ) •
              (normalizeOrZero ((2 : ℝ) • (1 / 2 : ℝ) • (pi - pm))).rotate
                (Vec2.fromAngle (Real.pi / (-2))),
            pi + ((20 : ℝ) •
              (normalizeOrZero ((2 : ℝ) • (1 / 2 : ℝ) • (pi - pm))).rotate
                (Vec2.fromAngle (Real.pi / (-2)))).rotate
                  (Vec2.fromAngle Real.pi)) := by
        unfold boundsPair
        rw [ht, hpi]
        rfl
      exact ⟨pi, _, _, hpi, ht, hp, rfl,
        fun h0 => absurd h0 hi0,
        fun _ _ => ⟨pm, hpm, rfl⟩,
        fun hgt hlt => by omega⟩
    · obtain ⟨pn, hpn⟩ : ∃ x, ps[i + 1]? = some x :=
        ⟨_, List.getElem?_eq_getElem (by omega)⟩
      obtain ⟨pm, hpm⟩ : ∃ x, ps[i - 1]? = some x :=
        ⟨_, List.getElem?_eq_getElem (by omega)⟩
      have ht : boundsTangent ps (1 / 2) i =
          some ((1 / 2 : ℝ) • (pn - pm)) := by
        unfold boundsTangent
        rw [if_neg hi0, if_neg hil, hpn, hpm]
        rfl
      have hp : boundsPair ps i =
          some (pi + (20 : ℝ) •
              (normalizeOrZero ((1 / 2 : ℝ) • (pn - pm))).rotate
                (Vec2.fromAngle (Real.pi / (-2))),
            pi + ((20 : ℝ) •
              (normalizeOrZero ((1 / 2 : ℝ) • (pn - pm))).rotate
                (Vec2.fromAngle (Real.pi / (-2)))).rotate
                  (Vec2.fromAngle Real.pi)) := by
        unfold boundsPair
        rw [ht, hpi]
        rfl
      exact ⟨pi, _, _, hpi, ht, hp, rfl,
        fun h0 => absurd h0 hi0,
        fun _ hl => absurd hl hil,
        fun _ _ => ⟨pn, pm, hpn, hpm, rfl⟩⟩

theorem compute_bounds_spec (ps : List Vec2) (h2 : 2 ≤ ps.length) :
    ∃ bounds, compute_bounds ps = some bounds ∧ bounds.length = ps.length ∧
      ∀ i, i < ps.length → bounds[i]? = boundsPair ps i := by
  have hsome : ∀ x ∈ List.range ps.length, (boundsPair ps x).isSome := by
    intro x hx
    obtain ⟨p, tRaw, pr, _, _, hpr, _⟩ :=
      boundsPair_spec ps x h2 (List.mem_range.mp hx)
    simp [hpr]
  obtain ⟨r, hr, hlen, hget⟩ := mapM_option_spec _ _ hsome
  refine ⟨r, hr, by simpa using hlen, ?_⟩
  intro i hi
  exact hget i i (List.getElem?_range hi)

/-! ### C6: the boundary offset computation -/

/-- C6, counterexample.  On a singleton sample list the first loop iteration
(`i = 0`) reads `control_points[i + 1]`, which is out of range, so
`compute_bounds` panics (modelled `none`) instead of returning one boundary
pair per sample as the claim demands for every sampled position list. -/
theorem c6_singleton_panics : compute_bounds [vec2 0 0] = none := rfl

/-- C6, amended: for every sampled position list of length at least 2 the
boundary computation returns exactly one pair per sample; the raw tangent at
sample i is the forward difference `(p[1] - p[0]) * 0.5 * 2` at `i = 0`, the
backward difference `(p[last] - p[last-1]) * 0.5 * 2` at the last index and
the central difference `(p[i+1] - p[i-1]) * 0.5` otherwise; whenever that
tangent is nonzero each point of pair i lies at distance exactly 20 (the
half-width) from sample i, and when it is the zero vector both points equal
the sample.  The empty list yields the empty sequence, but a singleton list
makes the loop panic (see the counterexample). -/
theorem c6_boundary_offsets (ps : List Vec2) (h : 2 ≤ ps.length) :
    (∃ bounds, compute_bounds ps = some bounds ∧ bounds.length = ps.length ∧
      ∀ i, i < ps.length →
        ∃ p pr, ps[i]? = some p ∧ bounds[i]? = some pr ∧
          ∃ tRaw, boundsTangent ps (1 / 2) i = some tRaw ∧
            (i = 0 → ∃ pn, ps[i + 1]? = some pn ∧
              tRaw = (2 : ℝ) • (1 / 2 : ℝ) • (pn - p)) ∧
            (0 < i → i = ps.length - 1 → ∃ pm, ps[i - 1]? = some pm ∧
              tRaw = (2 : ℝ) • (1 / 2 : ℝ) • (p - pm)) ∧
            (0 < i → i < ps.length - 1 → ∃ pn pm, ps[i + 1]? = some pn ∧
              ps[i - 1]? = some pm ∧ tRaw = (1 / 2 : ℝ) • (pn - pm)) ∧
            (tRaw ≠ 0 → vnorm (pr.1 - p) = 20 ∧ vnorm (pr.2 - p) = 20) ∧
            (tRaw = 0 → pr = (p, p))) ∧
    compute_bounds ([] : List Vec2) = some [] := by
  refine ⟨?_, rfl⟩
  obtain ⟨bounds, hb, hlen, hget⟩ := compute_bounds_spec ps h
  refine ⟨bounds, hb, hlen, ?_⟩
  intro i hi
  obtain ⟨p, tRaw, pr, hp, ht, hpr, hpreq, hc0, hcl, hcm⟩ :=
    boundsPair_spec ps i h hi
  refine ⟨p, pr, hp, by rw [hget i hi, hpr], tRaw, ht, hc0, hcl, hcm, ?_, ?_⟩
  · intro htne
    rw [hpreq]
    exact boundsOffset_norm tRaw p htne
  · intro ht0
    rw [hpreq, ht0]
    exact Prod.ext_iff.mpr ⟨(boundsOffset_zero p).1, (boundsOffset_zero p).2⟩

/-- C6, witness: the amended theorem evaluated on a concrete two-point sample
list — the hypothesis holds and the output has one pair per sample. -/
theorem c6_boundary_offsets_witness :
    (2 : ℕ) ≤ ([vec2 0 0, vec2 1 0] : List Vec2).length ∧
    (compute_bounds [vec2 0 0, vec2 1 0]).map List.length = some 2 := by
  obtain ⟨⟨bounds, hb, hlen, _⟩, _⟩ :=
    c6_boundary_offsets [vec2 0 0, vec2 1 0] (by simp)
  refine ⟨by simp, ?_⟩
  rw [hb]
  simp [hlen]

/-! ### C7: the ring mesh of the square track -/

theorem ringQuads_spec (bounds : List (Vec2 × Vec2)) :
    ∃ qs, (List.range bounds.length).mapM (ringQuad bounds) = some qs ∧
      qs.length = bounds.length ∧
      ∀ q ∈ qs, q.vertices.length = 4 ∧ q.indices = [0, 2, 3, 0, 1, 3] ∧
        q.hull.length = 4 := by
  have hsome : ∀ x ∈ List.range bounds.length, (ringQuad bounds x).isSome := by
    intro x hx
    have hxlt := List.mem_range.mp hx
    have hnext : (if x = bounds.length - 1 then 0 else x + 1) < bounds.length := by
      split <;> omega
    simp [ringQuad, List.getElem?_eq_getElem hxlt, List.getElem?_eq_getElem hnext]
  obtain ⟨r, hr, hlen, hget⟩ := mapM_option_spec _ _ hsome
  refine ⟨r, hr, by simpa using hlen, ?_⟩
  intro q hq
  obtain ⟨k, hk⟩ := List.mem_iff_getElem?.mp hq
  have hkr : k < r.length := by
    by_contra hge
    rw [List.getElem?_eq_none (by omega)] at hk
    exact Option.noConfusion hk
  have hklt : k < bounds.length := by
    rw [hlen] at hkr
    simpa using hkr
  have hrange : (List.range bounds.length)[k]? = some k := List.getElem?_range hklt
  have heq : ringQuad bounds k = some q := by rw [← hget k k hrange, hk]
  have hnext : (if k = bounds.length - 1 then 0 else k + 1) < bounds.length := by
    split <;> omega
  rw [ringQuad, List.getElem?_eq_getElem hklt,
    List.getElem?_eq_getElem hnext] at heq
  simp only [Option.some_bind, Option.map_some', Option.some.injEq] at heq
  rw [← heq]
  exact ⟨rfl, rfl, rfl⟩

theorem get_bounds_spec (track : RaceTrack) (h : 2 ≤ track.points.length) :
    ∃ bounds, track.get_bounds = some bounds ∧
      bounds.length = RESOLUTION * track.points.length := by
  obtain ⟨c, hc, hclen⟩ := toCurveCyclic_segments_length (1 / 2) track.points h
  have hform : track.form_curve = some c := hc
  have hsam : (c.iterPositions (RESOLUTION * c.segments.length)).length =
      RESOLUTION * c.segments.length := iterPositions_length _ _
  have h2 : 2 ≤ (c.iterPositions (RESOLUTION * c.segments.length)).length := by
    rw [hsam, hclen]
    simp only [RESOLUTION]
    omega
  obtain ⟨bounds, hb, hblen, _⟩ := compute_bounds_spec _ h2
  refine ⟨bounds, ?_, ?_⟩
  · unfold RaceTrack.get_bounds
    rw [hform]
    simpa using hb
  · rw [hblen, hsam, hclen]

theorem instantiate_track_spec (track : RaceTrack) (h : 2 ≤ track.points.length) :
    ∃ qs, instantiate_track track = some qs ∧
      qs.length = RESOLUTION * track.points.length ∧
      ∀ q ∈ qs, q.vertices.length = 4 ∧ q.indices = [0, 2, 3, 0, 1, 3] ∧
        q.hull.length = 4 := by
  obtain ⟨bounds, hb, hblen⟩ := get_bounds_spec track h
  obtain ⟨qs, hq, hqlen, hfields⟩ := ringQuads_spec bounds
  refine ⟨qs, ?_, by rw [hqlen, hblen], hfields⟩
  unfold instantiate_track
  rw [hb]
  simpa using hq

/-- C7, counterexample.  The square track's ring mesh has one quad per
boundary pair, and the boundary pair count is `RESOLUTION * segments = 5 * 4
= 20`, so the mesh has 20 quads, not the 4 the claim states. -/
theorem c7_quad_count_counterexample :
    (instantiate_track squareTrack).map List.length = some 20 ∧
    (20 : ℕ) ≠ 4 := by
  obtain ⟨qs, hq, hqlen, _⟩ :=
    instantiate_track_spec squareTrack (by simp [squareTrack])
  refine ⟨?_, by norm_num⟩
  rw [hq]
  simp only [Option.map_some', Option.some.injEq]
  rw [hqlen]
  simp [RESOLUTION, squareTrack]

/-- C7 (amended): four control points forming an axis-aligned square loop
produce a ring mesh with exactly 20 quads (each quad's index buffer encodes
its two triangles, 40 triangles in total) and 20 collision hulls, each hull
having 4 vertices — the boundary resolution for 4 points is
`RESOLUTION * segments = 5 * 4 = 20`, one quad and one hull per pair. -/
theorem c7_square_ring_mesh :
    ∃ quads, instantiate_track squareTrack = some quads ∧
      quads.length = 20 ∧
      ∀ q ∈ quads, q.vertices.length = 4 ∧ q.indices = [0, 2, 3, 0, 1, 3] ∧
        q.hull.length = 4 := by
  obtain ⟨qs, hq, hqlen, hfields⟩ :=
    instantiate_track_spec squareTrack (by simp [squareTrack])
  refine ⟨qs, hq, ?_, hfields⟩
  rw [hqlen]
  simp [RESOLUTION, squareTrack]

/-! ### C9: uniqueness of auto-generated track names

The generated names are `"Track " ++ toString k`, so the development first
proves that the decimal rendering `Nat.repr` is injective, via the
correspondence between `Nat.toDigits` and `Nat.digits`. -/

theorem toDigitsCore_eq_digits :
    ∀ (f n : ℕ) (acc : List Char), n < f → 0 < n →
      Nat.toDigitsCore 10 f n acc =
        ((Nat.digits 10 n).map Nat.digitChar).reverse ++ acc := by
  intro f
  induction f with
  | zero => intro n acc h _; omega
  | succ f ih =>
      intro n acc hnf hn
      by_cases hdiv : n / 10 = 0
      · have hdig : Nat.digits 10 n = [n % 10] := by
          rw [Nat.digits_def' (by norm_num : (1 : ℕ) < 10) hn, hdiv,
            Nat.digits_zero]
        simp [Nat.toDigitsCore, hdiv, hdig]
      · have hlt : n / 10 < f := by
          have h1 : n / 10 < n := Nat.div_lt_self hn (by norm_num)
          omega
        have hpos : 0 < n / 10 := Nat.pos_of_ne_zero hdiv
        have ihh := ih (n / 10) (Nat.digitChar (n % 10) :: acc) hlt hpos
        rw [Nat.digits_def' (by norm_num : (1 : ℕ) < 10) hn]
        simp [Nat.toDigitsCore, hdiv, ihh, List.reverse_cons, List.append_assoc]

theorem toDigits_eq_digits (n : ℕ) (hn : 0 < n) :
    Nat.toDigits 10 n = ((Nat.digits 10 n).map Nat.digitChar).reverse := by
  unfold Nat.toDigits
  rw [toDigitsCore_eq_digits (n + 1) n [] (by omega) hn]
  simp

theorem digitChar_inj_lt :
    ∀ x < 10, ∀ y < 10, Nat.digitChar x = Nat.digitChar y → x = y := by decide

theorem map_digitChar_inj :
    ∀ l1 l2 : List ℕ, (∀ x ∈ l1, x < 10) → (∀ x ∈ l2, x < 10) →
      l1.map Nat.digitChar = l2.map Nat.digitChar → l1 = l2
  | [], [], _, _, _ => rfl
  | [], _ :: _, _, _, h => by simp at h
  | _ :: _, [], _, _, h => by simp at h
  | a :: t1, b :: t2, h1, h2, h => by
      simp only [List.map_cons, List.cons.injEq] at h
      have ha := digitChar_inj_lt a (h1 a (by simp)) b (h2 b (by simp)) h.1
      have ht := map_digitChar_inj t1 t2 (fun x hx => h1 x (by simp [hx]))
        (fun x hx => h2 x (by simp [hx])) h.2
      rw [ha, ht]

theorem eq_zero_of_toDigits_eq (n : ℕ)
    (h : Nat.toDigits 10 n = Nat.toDigits 10 0) : n = 0 := by
  by_contra hne
  have hn : 0 < n := Nat.pos_of_ne_zero hne
  rw [toDigits_eq_digits n hn] at h
  have h0 : Nat.toDigits 10 0 = ['0'] := rfl
  rw [h0] at h
  have hrev : (Nat.digits 10 n).map Nat.digitChar = ['0'] := by
    have := congrArg List.reverse h
    simpa using this
  cases hd : Nat.digits 10 n with
  | nil => rw [hd] at hrev; simp at hrev
  | cons d t =>
      rw [hd] at hrev
      simp only [List.map_cons, List.cons.injEq, List.map_eq_nil_iff] at hrev
      have hd10 : d < 10 :=
        Nat.digits_lt_base (by norm_num) (by rw [hd]; simp)
      have hd0 : d = 0 :=
        digitChar_inj_lt d hd10 0 (by norm_num) (by rw [hrev.1]; rfl)
      have hofd := Nat.ofDigits_digits 10 n
      rw [hd, hd0, hrev.2] at hofd
      simp [Nat.ofDigits] at hofd
      omega

theorem nat_repr_injective : Function.Injective Nat.repr := by
  intro m n h
  have hdata : Nat.toDigits 10 m = Nat.toDigits 10 n := by
    have := congrArg String.data h
    simpa [Nat.repr, List.asString] using this
  rcases Nat.eq_zero_or_pos m with hm | hm
  · subst hm
    exact (eq_zero_of_toDigits_eq n hdata.symm).symm
  · rcases Nat.eq_zero_or_pos n with hn | hn
    · subst hn
      exact eq_zero_of_toDigits_eq m hdata
    · rw [toDigits_eq_digits m hm, toDigits_eq_digits n hn] at hdata
      have hmap := congrArg List.reverse hdata
      simp only [List.reverse_reverse] at hmap
      have hdig := map_digitChar_inj _ _
        (fun x hx => Nat.digits_lt_base (by norm_num) hx)
        (fun x hx => Nat.digits_lt_base (by norm_num) hx) hmap
      have h1 := Nat.ofDigits_digits 10 m
      rw [hdig, Nat.ofDigits_digits 10 n] at h1
      exact h1.symm

theorem trackNameOf_injective :
    Function.Injective (fun i : ℕ => "Track " ++ toString (i + 1)) := by
  intro x y hxy
  have hdata := congrArg String.data hxy
  simp only [String.data_append] at hdata
  have hrepr : (toString (x + 1) : String).data = (toString (y + 1)).data :=
    List.append_cancel_left hdata
  have hstr : (toString (x + 1) : String) = toString (y + 1) := String.ext hrepr
  have hx : Nat.repr (x + 1) = Nat.repr (y + 1) := hstr
  have := nat_repr_injective hx
  omega

theorem map_eraseIdx {α β : Type} (f : α → β) :
    ∀ (l : List α) (i : ℕ), (l.eraseIdx i).map f = (l.map f).eraseIdx i := by
  intro l
  induction l with
  | nil => intro i; rfl
  | cons a t ih =>
      intro i
      cases i with
      | zero => rfl
      | succ i => simp [List.eraseIdx_cons_succ, ih]

theorem eraseIdx_concat {α : Type} :
    ∀ (l : List α) (x : α), (l ++ [x]).eraseIdx l.length = l
  | [], _ => rfl
  | a :: t, x => by
      simp only [List.cons_append, List.length_cons, List.eraseIdx_cons_succ]
      rw [eraseIdx_concat t x]

theorem store_track_names (s : TracksAsset) (tr : RaceTrack) :
    (s.store_track tr).tracks.map RaceTrack.track_name =
      s.tracks.map RaceTrack.track_name ++ [tr.track_name] := by
  simp [TracksAsset.store_track]

theorem store_track_length (s : TracksAsset) (tr : RaceTrack) :
    (s.store_track tr).tracks.length = s.tracks.length + 1 := by
  simp [TracksAsset.store_track]

theorem eraseIdx_concat_of_len {α : Type} (l : List α) (x : α) (i : ℕ)
    (h : i = l.length) : (l ++ [x]).eraseIdx i = l := by
  subst h
  exact eraseIdx_concat l x

theorem new_track_canonical (s : TracksAsset)
    (h1 : s.tracks.map RaceTrack.track_name =
      (List.range s.tracks.length).map (fun i => "Track " ++ toString (i + 1))) :
    s.new_track.tracks.map RaceTrack.track_name =
      (List.range s.new_track.tracks.length).map
        (fun i => "Track " ++ toString (i + 1)) ∧
    s.new_track.tracks ≠ [] ∧
    s.new_track.current_track_index = some (s.new_track.tracks.length - 1) := by
  have hnt : s.new_track = s.store_track
      { track_name := "Track " ++ toString (s.tracks.length + 1),
        points := [vec2 (-500) (-200), vec2 (-500) (-150)] } := rfl
  refine ⟨?_, ?_, ?_⟩
  · rw [hnt, store_track_names, store_track_length, h1]
    simp [List.range_succ]
  · rw [hnt]
    simp [TracksAsset.store_track]
  · rw [hnt]
    simp [TracksAsset.store_track]

theorem delete_canonical (s : TracksAsset)
    (h1 : s.tracks.map RaceTrack.track_name =
      (List.range s.tracks.length).map (fun i => "Track " ++ toString (i + 1)))
    (h2 : s.current_track_index = none ∨
      (s.tracks ≠ [] ∧ s.current_track_index = some (s.tracks.length - 1))) :
    s.delete_current_track.tracks.map RaceTrack.track_name =
      (List.range s.delete_current_track.tracks.length).map
        (fun i => "Track " ++ toString (i + 1)) ∧
    s.delete_current_track.current_track_index = none := by
  rcases h2 with hnone | ⟨hne, hlast⟩
  · have hd : s.delete_current_track = s := by
      simp [TracksAsset.delete_current_track, hnone]
    rw [hd]
    exact ⟨h1, hnone⟩
  · have hpos : 0 < s.tracks.length := List.length_pos.mpr hne
    have hd : s.delete_current_track =
        { tracks := s.tracks.eraseIdx (s.tracks.length - 1),
          current_track_index := none } := by
      simp [TracksAsset.delete_current_track, hlast]
    rw [hd]
    refine ⟨?_, rfl⟩
    show (s.tracks.eraseIdx (s.tracks.length - 1)).map RaceTrack.track_name =
      (List.range (s.tracks.eraseIdx (s.tracks.length - 1)).length).map
        (fun i => "Track " ++ toString (i + 1))
    have hlen2 : (s.tracks.eraseIdx (s.tracks.length - 1)).length =
        s.tracks.length - 1 := by
      rw [List.length_eraseIdx, if_pos (by omega)]
    rw [map_eraseIdx, h1, hlen2]
    have hr : List.range s.tracks.length =
        List.range (s.tracks.length - 1) ++ [s.tracks.length - 1] := by
      rw [← List.range_succ]
      congr 1
      omega
    rw [hr, List.map_append]
    simp only [List.map_cons, List.map_nil]
    rw [eraseIdx_concat_of_len _ _ _ (by simp)]

theorem applyOps_create_delete_canonical :
    ∀ (ops : List CatalogOp), (∀ op ∈ ops, op.isStore = false) →
      ∀ s : TracksAsset,
        s.tracks.map RaceTrack.track_name =
          (List.range s.tracks.length).map
            (fun i => "Track " ++ toString (i + 1)) →
        (s.current_track_index = none ∨
          (s.tracks ≠ [] ∧ s.current_track_index = some (s.tracks.length - 1))) →
        (applyOps s ops).tracks.map RaceTrack.track_name =
          (List.range (applyOps s ops).tracks.length).map
            (fun i => "Track " ++ toString (i + 1)) := by
  intro ops
  induction ops with
  | nil => exact fun _ s h1 _ => h1
  | cons op t ih =>
      intro hops s h1 h2
      have hopt : ∀ x ∈ t, x.isStore = false := fun x hx => hops x (by simp [hx])
      have hstep : applyOps s (op :: t) = applyOps (applyOp s op) t := rfl
      rw [hstep]
      cases op with
      | create =>
          have hc := new_track_canonical s h1
          exact ih hopt _ hc.1 (Or.inr ⟨hc.2.1, hc.2.2⟩)
      | store tr => simp [CatalogOp.isStore] at hops
      | delete =>
          have hc := delete_canonical s h1 h2
          exact ih hopt _ hc.1 (Or.inl hc.2)

/-- C9, counterexample.  `store_track` appends without any name check, so
storing a track named "Track 1" right after `create_track` leaves two tracks
with the same name — uniqueness fails for sequences that contain a `store`. -/
theorem c9_store_duplicates_names :
    ¬ ((applyOps { tracks := [], current_track_index := none }
        [CatalogOp.create,
         CatalogOp.store { track_name := "Track 1", points := [] }]).tracks.map
      RaceTrack.track_name).Nodup := by
  intro h
  have hnames : (applyOps { tracks := [], current_track_index := none }
      [CatalogOp.create,
       CatalogOp.store { track_name := "Track 1", points := [] }]).tracks.map
      RaceTrack.track_name = ["Track 1", "Track 1"] := by decide
  rw [hnames] at h
  simp at h

/-- C9, amended: starting from the empty catalog, under every sequence of
`create_track` and `delete_selected` operations no two tracks share a
`track_name` — the tracks are always exactly "Track 1" … "Track k" in order;
`store`, however, appends an arbitrary track without name checking and can
duplicate a name (see the counterexample). -/
theorem c9_names_unique (ops : List CatalogOp)
    (hops : ∀ op ∈ ops, op.isStore = false) :
    ((applyOps { tracks := [], current_track_index := none } ops).tracks.map
      RaceTrack.track_name).Nodup := by
  have hcanon := applyOps_create_delete_canonical ops hops
    { tracks := [], current_track_index := none } (by simp) (Or.inl rfl)
  rw [hcanon]
  exact List.Nodup.map trackNameOf_injective (List.nodup_range _)

/-- C9, witness: a concrete create/create/delete/create sequence yields
pairwise distinct names. -/
theorem c9_names_unique_witness :
    ((applyOps { tracks := [], current_track_index := none }
        [CatalogOp.create, CatalogOp.create, CatalogOp.delete,
         CatalogOp.create]).tracks.map RaceTrack.track_name).Nodup :=
  c9_names_unique
    [CatalogOp.create, CatalogOp.create, CatalogOp.delete, CatalogOp.create]
    (by decide)
